import Mathlib

/-
Verification of `polymer_simulations/starting_conformations.py`
(`make_helical_loopbrush`): a shallow embedding of the routine that
generates a helical loop-brush starting conformation, together with
theorems about its stages (backbone index resolution, helix phase and
point generation, loop direction vectors, hairpin arm placement) and
about the control flow of a full call.

Python floats are modelled as real numbers; the Lx3 coordinate array is
modelled as a total function `ℕ → V3` (entries outside 0..L-1 are never
read by the modelled code); sequential numpy element assignment is
modelled with `Function.update`.
-/

open Real

open scoped Classical

/-- A 3-D point / vector, one row of the Lx3 numpy array `coords`. -/
@[ext] structure V3 where
  x : ℝ
  y : ℝ
  z : ℝ

instance : Zero V3 := ⟨⟨0, 0, 0⟩⟩

instance : Add V3 := ⟨fun a b => ⟨a.x + b.x, a.y + b.y, a.z + b.z⟩⟩

/-- Componentwise division of a vector by a scalar, as in `u /= ...`. -/
noncomputable def vdiv (v : V3) (t : ℝ) : V3 := ⟨v.x / t, v.y / t, v.z / t⟩

/-- Scalar multiple by a natural number, used to state chained unit steps. -/
def nsmulV (k : ℕ) (v : V3) : V3 := ⟨(k : ℝ) * v.x, (k : ℝ) * v.y, (k : ℝ) * v.z⟩

/-- Sum of squared components, `(u**2).sum()` in the source. -/
def sq_norm (v : V3) : ℝ := v.x ^ 2 + v.y ^ 2 + v.z ^ 2

/-- The exceptions a call can raise.  `nameError_kwargs` is the unhandled
NameError from reading the undefined name `kwargs` at the backbone-jitter
line; `zeroDivisionError` is Python float division by zero at the winding
computation; `indexError` is numpy fancy-index assignment out of bounds.
`invalidLoopSpecification` and `invalidParameter` are the exceptions the
specification names; the source never raises them (they are included so
that claims about them can be stated). -/
inductive PyErr where
  | nameError_kwargs : PyErr
  | zeroDivisionError : PyErr
  | indexError : PyErr
  | invalidLoopSpecification : PyErr
  | invalidParameter : PyErr
deriving DecidableEq

/-- `np.arange(a, b)` on naturals: the list `[a, a+1, ..., b-1]`
(empty when `b ≤ a`). -/
def arange (a b : ℕ) : List ℕ := (List.range (b - a)).map fun k => a + k

/-- Line 46: `loopstarts = np.array([min(i) for i in loops])`. -/
def loopstarts (loops : List (ℕ × ℕ)) : List ℕ := loops.map fun p => min p.1 p.2

/-- Line 47: `loopends = np.array([max(i) for i in loops])`. -/
def loopends (loops : List (ℕ × ℕ)) : List ℕ := loops.map fun p => max p.1 p.2

/-- Lines 50-57: the backbone index list.  With loops:
`concatenate([arange(0, loopstarts[0]+1)] + [arange(loopends[i],
loopstarts[i+1]+1) for i in range(len(loops)-1)] + [arange(loopends[-1], L)])`;
without loops: `range(L)`. -/
def bbidxs (L : ℕ) : List (ℕ × ℕ) → List ℕ
  | [] => List.range L
  | p :: ps =>
      arange 0 ((loopstarts (p :: ps)).getD 0 0 + 1)
      ++ (List.range ((p :: ps).length - 1)).flatMap
           (fun i => arange ((loopends (p :: ps)).getD i 0)
                            ((loopstarts (p :: ps)).getD (i + 1) 0 + 1))
      ++ arange ((loopends (p :: ps)).getD ((p :: ps).length - 1) 0) L

/-- Lines 60-61: `helix_turn_len = sqrt((2*pi*helix_radius)**2 + helix_step**2)`. -/
noncomputable def helix_turn_len (helix_radius helix_step : ℝ) : ℝ :=
  Real.sqrt ((2 * π * helix_radius) ^ 2 + helix_step ^ 2)

/-- Line 62: `helix_total_winding = 2*pi*(bb_len-1) / bb_linear_density / helix_turn_len`. -/
noncomputable def helix_total_winding (bb_len : ℕ) (bb_linear_density helix_radius helix_step : ℝ) : ℝ :=
  2 * π * ((bb_len : ℝ) - 1) / bb_linear_density / helix_turn_len helix_radius helix_step

/-- `np.linspace(a, b, n)` as a function of the index `k < n`:
`n` evenly spaced values from `a` to `b` inclusive (`[a]` when `n = 1`). -/
noncomputable def linspace (a b : ℝ) (n : ℕ) : ℕ → ℝ :=
  fun k => if n ≤ 1 then a else a + (b - a) * (k : ℝ) / ((n : ℝ) - 1)

/-- Line 64: `bb_phases = np.linspace(0, helix_total_winding, bb_len)`. -/
noncomputable def bb_phases (L : ℕ) (helix_radius helix_step bb_linear_density : ℝ)
    (loops : List (ℕ × ℕ)) : ℕ → ℝ :=
  linspace 0
    (helix_total_winding (bbidxs L loops).length bb_linear_density helix_radius helix_step)
    (bbidxs L loops).length

/-- Lines 66-69, one row of the vstack: the 3-D point for phase `φ`:
`(r*sin(φ), r*cos(φ), φ/2/pi*s)`. -/
noncomputable def helix_point (helix_radius helix_step φ : ℝ) : V3 :=
  ⟨helix_radius * Real.sin φ, helix_radius * Real.cos φ, φ / 2 / π * helix_step⟩

/-- Sequential element assignment `c[idxs[k]] = v k` for `k = 0, ..., len-1`,
modelling the fancy-index assignment `coords[bbidxs] = vals`. -/
noncomputable def assign_coords (c : ℕ → V3) (idxs : List ℕ) (v : ℕ → V3) : ℕ → V3 :=
  (List.range idxs.length).foldl (fun acc k => Function.update acc (idxs.getD k 0) (v k)) c

/-- Lines 45 and 66-69: the coordinate array after the backbone of helix
points has been written into the zero-initialised array. -/
noncomputable def backbone_coords (L : ℕ) (helix_radius helix_step bb_linear_density : ℝ)
    (loops : List (ℕ × ℕ)) : ℕ → V3 :=
  assign_coords (fun _ => 0) (bbidxs L loops)
    (fun k => helix_point helix_radius helix_step
                (bb_phases L helix_radius helix_step bb_linear_density loops k))

/-- The full call `make_helical_loopbrush(L, helix_radius, helix_step, loops,
bb_linear_density, random_loop_orientations, bb_random_shift)`, modelling
the exceptions the Python function actually raises, in source order:

* line 62 divides the Python float `2.0*np.pi*(bb_len-1)` by
  `bb_linear_density`, a `ZeroDivisionError` when the density is zero
  (the later division by `helix_turn_len`, a numpy scalar, never raises);
* line 66 `coords[bbidxs] = ...` raises `IndexError` when some backbone
  index is out of range;
* line 71 reads the undefined name `kwargs`
  (`... * kwargs.get('bb_random_shift', 0)`), an unhandled `NameError`
  on every call that reaches it, so the function never returns. -/
noncomputable def make_helical_loopbrush (L : ℕ) (helix_radius helix_step : ℝ)
    (loops : List (ℕ × ℕ)) (bb_linear_density : ℝ)
    (random_loop_orientations : Bool) (bb_random_shift : ℝ) :
    Except PyErr (ℕ → V3) :=
  if bb_linear_density = 0 then Except.error PyErr.zeroDivisionError
  else if ∀ i ∈ bbidxs L loops, i < L then Except.error PyErr.nameError_kwargs
  else Except.error PyErr.indexError

/-- Lines 79-82, anchored (default) mode: `u = (coords[start] + coords[end])/2`,
then `u[2] = 0`, then `u /= (u**2).sum()**0.5`, given the two anchor
coordinates `a` and `b`. -/
noncomputable def loop_direction_anchored (a b : V3) : V3 :=
  let u0 := vdiv (a + b) 2
  let u1 : V3 := ⟨u0.x, u0.y, 0⟩
  vdiv u1 (Real.sqrt (sq_norm u1))

/-- Lines 83-85 after `t` iterations of the arm-placing loop for one loop
`(start, e)` with direction `u`: iteration `j` performs
`coords[start+j+1] = coords[start+j] + u` then
`coords[e-j-1] = coords[e-j] + u`. -/
noncomputable def place_arms (u : V3) (start e : ℕ) (c : ℕ → V3) : ℕ → (ℕ → V3)
  | 0 => c
  | t + 1 =>
      let cj := place_arms u start e c t
      let c1 := Function.update cj (start + t + 1) (cj (start + t) + u)
      Function.update c1 (e - t - 1) (c1 (e - t) + u)

/-- Line 83: the loop body runs for `j in range(looplens[i] // 2)`, i.e.
`(e - start) / 2` iterations. -/
noncomputable def place_loop (u : V3) (start e : ℕ) (c : ℕ → V3) : ℕ → V3 :=
  place_arms u start e c ((e - start) / 2)

/-- Modelled from the spec (section 4.4), for comparison with `place_loop`:
the same two per-iteration assignments, but walked `⌊n/2⌋` steps
where `n = e - start - 1` is the loop interior length. -/
noncomputable def place_loop_spec (u : V3) (start e : ℕ) (c : ℕ → V3) : ℕ → V3 :=
  place_arms u start e c ((e - start - 1) / 2)

/-- Modelled from the spec (section 4.1), for comparison with `bbidxs`:
membership in the union `[0, start₀] ∪ ⋃ᵢ [endᵢ, startᵢ₊₁] ∪ [end_last, L-1]`
of inclusive ranges, or the full range `[0, L)` when no loops are given. -/
def backbone_spec (L : ℕ) : List (ℕ × ℕ) → ℕ → Prop
  | [], x => x < L
  | p :: ps, x =>
      x ≤ (loopstarts (p :: ps)).getD 0 0
      ∨ (∃ i, i + 1 < (p :: ps).length
            ∧ (loopends (p :: ps)).getD i 0 ≤ x
            ∧ x ≤ (loopstarts (p :: ps)).getD (i + 1) 0)
      ∨ ((loopends (p :: ps)).getD ((p :: ps).length - 1) 0 ≤ x ∧ x ≤ L - 1)

/-- Closed-form description of the array state after `t` iterations of the
arm-placing loop: start-side indices hold a chain of `+u` steps from the
start anchor, end-side indices a chain of `+u` steps from the end anchor,
everything else is untouched. -/
noncomputable def arm_profile (u : V3) (start e : ℕ) (c : ℕ → V3) (t : ℕ) : ℕ → V3 :=
  fun i =>
    if start < i ∧ i ≤ start + t ∧ i < e - t then c start + nsmulV (i - start) u
    else if e - t ≤ i ∧ i < e then c e + nsmulV (e - i) u
    else c i

/-- Concrete initial coordinates used to exhibit the arm placer's behaviour
on a loop with anchors at 0 and 4 placed apart. -/
noncomputable def loop_cex_coords : ℕ → V3 := fun n => if n = 4 then ⟨0, 10, 0⟩ else 0

@[simp] lemma V3_mk_x (a b c : ℝ) : (V3.mk a b c).x = a := rfl

@[simp] lemma V3_mk_y (a b c : ℝ) : (V3.mk a b c).y = b := rfl

@[simp] lemma V3_mk_z (a b c : ℝ) : (V3.mk a b c).z = c := rfl

@[simp] lemma V3_add_x (a b : V3) : (a + b).x = a.x + b.x := rfl

@[simp] lemma V3_add_y (a b : V3) : (a + b).y = a.y + b.y := rfl

@[simp] lemma V3_add_z (a b : V3) : (a + b).z = a.z + b.z := rfl

@[simp] lemma V3_zero_x : (0 : V3).x = 0 := rfl

@[simp] lemma V3_zero_y : (0 : V3).y = 0 := rfl

@[simp] lemma V3_zero_z : (0 : V3).z = 0 := rfl

lemma nsmulV_zero_add (w u : V3) : w + nsmulV 0 u = w := by
  ext <;> simp [nsmulV]

lemma nsmulV_succ_add (w u : V3) (k : ℕ) :
    (w + nsmulV k u) + u = w + nsmulV (k + 1) u := by
  ext <;> simp [nsmulV] <;> ring

lemma arange_mem (a b x : ℕ) : x ∈ arange a b ↔ a ≤ x ∧ x < b := by
  simp only [arange, List.mem_map, List.mem_range]
  constructor
  · rintro ⟨k, hk, rfl⟩; omega
  · intro h; exact ⟨x - a, by omega, by omega⟩

/-- C1: the claim that every call returns exactly `L` 3-D points is the
docstring's intent, but the code always raises the unhandled NameError at
line 71 before returning; here the call of the spec's own example input
errors instead of returning a coordinate array. -/
theorem loopbrush_example_call_errors :
    make_helical_loopbrush 10 1 2 [(2, 6)] 1 false 0
      = Except.error PyErr.nameError_kwargs := by
  unfold make_helical_loopbrush
  rw [if_neg one_ne_zero, if_pos (by decide)]

/-- C2 counterexample: not every call raises the NameError at the
backbone-jitter step: with `bb_linear_density = 0` the Python float
division at line 62 raises ZeroDivisionError first. -/
theorem loopbrush_zero_density_not_nameerror :
    make_helical_loopbrush 10 1 2 [] 0 false 0
        = Except.error PyErr.zeroDivisionError ∧
    make_helical_loopbrush 10 1 2 [] 0 false 0
        ≠ Except.error PyErr.nameError_kwargs := by
  have h : make_helical_loopbrush 10 1 2 [] 0 false 0
      = Except.error PyErr.zeroDivisionError := by
    unfold make_helical_loopbrush
    rw [if_pos rfl]
  exact ⟨h, by rw [h]; simp⟩

/-- C2 (amended): every call fails with an unhandled exception before
returning — ZeroDivisionError when the linear density is zero,
IndexError when a backbone index is out of range, and otherwise the
NameError from reading the undefined name `kwargs` at the jitter step;
no call ever returns a coordinate array. -/
theorem loopbrush_all_calls_error (L : ℕ) (r s : ℝ) (loops : List (ℕ × ℕ))
    (ρ : ℝ) (o : Bool) (sh : ℝ) :
    (∃ er, make_helical_loopbrush L r s loops ρ o sh = Except.error er) ∧
    (ρ ≠ 0 → (∀ i ∈ bbidxs L loops, i < L) →
      make_helical_loopbrush L r s loops ρ o sh
        = Except.error PyErr.nameError_kwargs) := by
  constructor
  · unfold make_helical_loopbrush
    split_ifs <;> exact ⟨_, rfl⟩
  · intro h1 h2
    unfold make_helical_loopbrush
    rw [if_neg h1, if_pos h2]

/-- C2 witness: a concrete in-range call with nonzero density reaches the
jitter step and fails there. -/
theorem loopbrush_all_calls_error_witness :
    make_helical_loopbrush 7 1 2 [] 1 false 0
      = Except.error PyErr.nameError_kwargs :=
  (loopbrush_all_calls_error 7 1 2 [] 1 false 0).2 one_ne_zero (by decide)

/-- C3 counterexample: the overlapping loop list `[(1,5),(3,8)]` does not
raise InvalidLoopSpecification (no validation exists in the code); the
call builds the garbled backbone partition and fails with the universal
NameError at the jitter step instead. -/
theorem overlapping_loops_not_invalidloopspec :
    make_helical_loopbrush 10 1 2 [(1, 5), (3, 8)] 1 false 0
        = Except.error PyErr.nameError_kwargs ∧
    make_helical_loopbrush 10 1 2 [(1, 5), (3, 8)] 1 false 0
        ≠ Except.error PyErr.invalidLoopSpecification := by
  have h : make_helical_loopbrush 10 1 2 [(1, 5), (3, 8)] 1 false 0
      = Except.error PyErr.nameError_kwargs := by
    unfold make_helical_loopbrush
    rw [if_neg one_ne_zero, if_pos (by decide)]
  exact ⟨h, by rw [h]; simp⟩

/-- C3 (amended): the function performs no loop validation at all: no call,
with overlapping, unsorted, or out-of-range loops or otherwise, ever
raises InvalidLoopSpecification; invalid loop lists proceed through the
index partitioning and geometry and fail with the unhandled NameError at
the jitter step (or IndexError at the backbone assignment when an index
exceeds `L-1`, or ZeroDivisionError when the density is zero). -/
theorem no_invalid_loop_specification_ever (L : ℕ) (r s : ℝ)
    (loops : List (ℕ × ℕ)) (ρ : ℝ) (o : Bool) (sh : ℝ) :
    make_helical_loopbrush L r s loops ρ o sh
      ≠ Except.error PyErr.invalidLoopSpecification := by
  unfold make_helical_loopbrush
  split_ifs <;> simp

/-- C8: the spec's jitter behaviour is the docstring's stated intent for
`bb_random_shift`, but line 71 reads the undefined name `kwargs` instead
of the parameter, so a call with positive shift crashes with NameError
rather than adding uniform offsets, and even the default shift = 0 call
crashes rather than returning the exact helix points. -/
theorem jitter_line_always_crashes :
    make_helical_loopbrush 6 1 2 [] 1 false (1 / 2)
        = Except.error PyErr.nameError_kwargs ∧
    make_helical_loopbrush 6 1 2 [] 1 false 0
        = Except.error PyErr.nameError_kwargs := by
  constructor <;>
    (unfold make_helical_loopbrush
     rw [if_neg one_ne_zero, if_pos (by decide)])

/-- C9 counterexample: a call with a non-positive helix radius does not
raise InvalidParameter (no parameter validation exists in the code); it
proceeds through the geometry and fails with the universal NameError at
the jitter step instead. -/
theorem negative_radius_not_invalidparameter :
    make_helical_loopbrush 10 (-1) 2 [] 1 false 0
        = Except.error PyErr.nameError_kwargs ∧
    make_helical_loopbrush 10 (-1) 2 [] 1 false 0
        ≠ Except.error PyErr.invalidParameter := by
  have h : make_helical_loopbrush 10 (-1) 2 [] 1 false 0
      = Except.error PyErr.nameError_kwargs := by
    unfold make_helical_loopbrush
    rw [if_neg one_ne_zero, if_pos (by decide)]
  exact ⟨h, by rw [h]; simp⟩

/-- C9 (amended): the function validates no parameter: no call, whatever
its radius, step, density or loop anchors, ever raises InvalidParameter;
non-positive parameters proceed through the geometry and fail with the
unhandled NameError at the jitter step (zero density fails earlier with
ZeroDivisionError, and the degenerate-anchor division in the dead loop
code below line 71 is a numpy division producing nan, not an exception). -/
theorem no_invalid_parameter_ever (L : ℕ) (r s : ℝ)
    (loops : List (ℕ × ℕ)) (ρ : ℝ) (o : Bool) (sh : ℝ) :
    make_helical_loopbrush L r s loops ρ o sh
      ≠ Except.error PyErr.invalidParameter := by
  unfold make_helical_loopbrush
  split_ifs <;> simp

/-- C5: for a loop list in ascending non-overlapping order with in-range
indices, membership in the computed backbone index list coincides with the
spec's union of inclusive ranges `[0, start₀] ∪ ⋃ᵢ [endᵢ, startᵢ₊₁] ∪
[end_last, L-1]`; with no loops it is the full range `[0, L)`; and the
spec's example `L = 10, loops = [(2,6)]` yields exactly `{0,1,2,6,7,8,9}`. -/
theorem bbidxs_matches_spec (L : ℕ) (loops : List (ℕ × ℕ))
    (hord : List.Chain' (fun p q => max p.1 p.2 < min q.1 q.2) loops)
    (hrange : ∀ p ∈ loops, max p.1 p.2 < L) :
    (∀ x, x ∈ bbidxs L loops ↔ backbone_spec L loops x) ∧
    (∀ x, x ∈ bbidxs L [] ↔ x < L) ∧
    bbidxs 10 [(2, 6)] = [0, 1, 2, 6, 7, 8, 9] := by
  refine ⟨?_, ?_, by decide⟩
  · intro x
    rcases loops with _ | ⟨p, ps⟩
    · simp [bbidxs, backbone_spec]
    · have hL : 1 ≤ L := by
        have := hrange p (List.mem_cons_self p ps)
        omega
      simp only [bbidxs, backbone_spec, List.mem_append, List.mem_flatMap,
        List.mem_range, arange_mem]
      constructor
      · rintro ((h1 | ⟨i, hi, h2⟩) | h3)
        · exact Or.inl (by omega)
        · exact Or.inr (Or.inl ⟨i, by simpa using hi, by omega, by omega⟩)
        · exact Or.inr (Or.inr (by omega))
      · rintro (h1 | ⟨i, hi, h2, h3⟩ | h4)
        · exact Or.inl (Or.inl (by omega))
        · exact Or.inl (Or.inr ⟨i, by simpa using hi, by omega⟩)
        · exact Or.inr (by omega)
  · intro x
    simp [bbidxs]

/-- C5 witness: the concrete example of the spec, with its hypotheses
checked at the concrete loop list. -/
theorem bbidxs_matches_spec_witness :
    bbidxs 10 [(2, 6)] = [0, 1, 2, 6, 7, 8, 9] :=
  (bbidxs_matches_spec 10 [(2, 6)] (by simp) (by decide)).2.2

lemma getD_inj_of_nodup (idxs : List ℕ) (hnd : idxs.Nodup) (k n : ℕ)
    (hk : k < idxs.length) (hn : n < idxs.length)
    (h : idxs.getD k 0 = idxs.getD n 0) : k = n := by
  rw [List.getD_eq_getElem idxs 0 hk, List.getD_eq_getElem idxs 0 hn] at h
  exact (List.Nodup.getElem_inj_iff hnd).mp h

lemma assign_coords_getD (c : ℕ → V3) (idxs : List ℕ) (v : ℕ → V3)
    (hnd : idxs.Nodup) (k : ℕ) (hk : k < idxs.length) :
    assign_coords c idxs v (idxs.getD k 0) = v k := by
  suffices h : ∀ n, n ≤ idxs.length → ∀ k, k < n →
      ((List.range n).foldl (fun acc j => Function.update acc (idxs.getD j 0) (v j)) c)
        (idxs.getD k 0) = v k from h idxs.length le_rfl k hk
  intro n
  induction n with
  | zero => intro _ k hk; omega
  | succ n ih =>
      intro hn k hk
      rw [List.range_succ, List.foldl_append, List.foldl_cons, List.foldl_nil]
      rcases Nat.lt_succ_iff_lt_or_eq.mp hk with hk' | rfl
      · rw [Function.update_apply, if_neg]
        · exact ih (by omega) k hk'
        · intro hEq
          have := getD_inj_of_nodup idxs hnd k n (by omega) (by omega) hEq
          omega
      · rw [Function.update_apply, if_pos rfl]

/-- C4: when the backbone indices are distinct, the `bb_len` phases are
evenly spaced over `[0, Φ]` with `Φ` the total winding (first phase 0, last
phase `Φ`, constant consecutive difference `Φ/(bb_len-1)`), and the `k`-th
backbone index is assigned the point
`(r·sin(φₖ), r·cos(φₖ), (φₖ/2π)·s)` in traversal order. -/
theorem helix_phases_and_points (L : ℕ) (r s ρ : ℝ) (loops : List (ℕ × ℕ))
    (hnd : (bbidxs L loops).Nodup) :
    (2 ≤ (bbidxs L loops).length →
      bb_phases L r s ρ loops 0 = 0 ∧
      bb_phases L r s ρ loops ((bbidxs L loops).length - 1)
        = helix_total_winding (bbidxs L loops).length ρ r s ∧
      ∀ k, k + 1 < (bbidxs L loops).length →
        bb_phases L r s ρ loops (k + 1) - bb_phases L r s ρ loops k
          = helix_total_winding (bbidxs L loops).length ρ r s
              / (((bbidxs L loops).length : ℝ) - 1)) ∧
    ∀ k, k < (bbidxs L loops).length →
      backbone_coords L r s ρ loops ((bbidxs L loops).getD k 0)
        = ⟨r * Real.sin (bb_phases L r s ρ loops k),
           r * Real.cos (bb_phases L r s ρ loops k),
           bb_phases L r s ρ loops k / (2 * π) * s⟩ := by
  constructor
  · intro h2
    have hne : ((bbidxs L loops).length : ℝ) - 1 ≠ 0 := by
      have : (2 : ℝ) ≤ ((bbidxs L loops).length : ℝ) := by exact_mod_cast h2
      linarith
    have hnot : ¬ (bbidxs L loops).length ≤ 1 := by omega
    refine ⟨?_, ?_, ?_⟩
    · simp [bb_phases, linspace, hnot]
    · simp only [bb_phases, linspace]
      rw [if_neg hnot, Nat.cast_sub (by omega : 1 ≤ (bbidxs L loops).length)]
      push_cast
      field_simp
    · intro k hk
      simp only [bb_phases, linspace]
      rw [if_neg hnot, if_neg hnot]
      push_cast
      field_simp
      ring
  · intro k hk
    simp only [backbone_coords]
    rw [assign_coords_getD _ _ _ hnd k hk]
    apply V3.ext <;> simp [helix_point, div_div]

/-- C4 witness: for `L = 5` with no loops, radius 1, step 2, density 1, the
first phase is 0 and backbone index 2 receives the helix point of its
phase. -/
theorem helix_phases_and_points_witness :
    bb_phases 5 1 2 1 [] 0 = 0 ∧
    backbone_coords 5 1 2 1 [] ((bbidxs 5 []).getD 2 0)
      = ⟨1 * Real.sin (bb_phases 5 1 2 1 [] 2),
         1 * Real.cos (bb_phases 5 1 2 1 [] 2),
         bb_phases 5 1 2 1 [] 2 / (2 * π) * 2⟩ :=
  ⟨((helix_phases_and_points 5 1 2 1 [] (by decide)).1 (by decide)).1,
   (helix_phases_and_points 5 1 2 1 [] (by decide)).2 2 (by decide)⟩

/-- C7: in anchored (default) mode the direction vector of a loop is the
midpoint of the two anchor coordinates with its axial (third) component
forced to 0 and then normalized; when the projected midpoint is nonzero
(non-degenerate anchors) it has unit length (squared norm 1, norm 1) and
zero component along the helix axis. -/
theorem anchored_direction_unit (a b : V3)
    (h : ¬(a.x + b.x = 0 ∧ a.y + b.y = 0)) :
    sq_norm (loop_direction_anchored a b) = 1 ∧
    Real.sqrt (sq_norm (loop_direction_anchored a b)) = 1 ∧
    (loop_direction_anchored a b).z = 0 ∧
    loop_direction_anchored a b
      = vdiv ⟨(a.x + b.x) / 2, (a.y + b.y) / 2, 0⟩
          (Real.sqrt (sq_norm ⟨(a.x + b.x) / 2, (a.y + b.y) / 2, 0⟩)) := by
  have hS : 0 < sq_norm ⟨(a.x + b.x) / 2, (a.y + b.y) / 2, 0⟩ := by
    simp only [sq_norm, V3_mk_x, V3_mk_y, V3_mk_z]
    rcases not_and_or.mp h with hx | hy
    · have hm : (a.x + b.x) / 2 ≠ 0 := div_ne_zero hx two_ne_zero
      have h1 : 0 < ((a.x + b.x) / 2) ^ 2 :=
        lt_of_le_of_ne (sq_nonneg _) (Ne.symm (pow_ne_zero 2 hm))
      nlinarith [sq_nonneg ((a.y + b.y) / 2)]
    · have hm : (a.y + b.y) / 2 ≠ 0 := div_ne_zero hy two_ne_zero
      have h1 : 0 < ((a.y + b.y) / 2) ^ 2 :=
        lt_of_le_of_ne (sq_nonneg _) (Ne.symm (pow_ne_zero 2 hm))
      nlinarith [sq_nonneg ((a.x + b.x) / 2)]
  have hdir : loop_direction_anchored a b
      = vdiv ⟨(a.x + b.x) / 2, (a.y + b.y) / 2, 0⟩
          (Real.sqrt (sq_norm ⟨(a.x + b.x) / 2, (a.y + b.y) / 2, 0⟩)) := rfl
  have hS' := hS
  simp only [sq_norm, V3_mk_x, V3_mk_y, V3_mk_z] at hS'
  have c1 : sq_norm (loop_direction_anchored a b) = 1 := by
    rw [hdir]
    simp only [sq_norm, vdiv, V3_mk_x, V3_mk_y, V3_mk_z]
    have ht : Real.sqrt (((a.x + b.x) / 2) ^ 2 + ((a.y + b.y) / 2) ^ 2 + 0 ^ 2) ≠ 0 :=
      (Real.sqrt_pos.mpr hS').ne'
    have ht2 : Real.sqrt (((a.x + b.x) / 2) ^ 2 + ((a.y + b.y) / 2) ^ 2 + 0 ^ 2) ^ 2
        = ((a.x + b.x) / 2) ^ 2 + ((a.y + b.y) / 2) ^ 2 + 0 ^ 2 := Real.sq_sqrt hS'.le
    have hAB : (a.x + b.x) ^ 2 + (a.y + b.y) ^ 2 ≠ 0 := by
      have hp : 0 < (a.x + b.x) ^ 2 + (a.y + b.y) ^ 2 := by nlinarith [hS']
      exact hp.ne'
    field_simp
  have c3 : (loop_direction_anchored a b).z = 0 := by
    rw [hdir]
    simp [vdiv]
  exact ⟨c1, by rw [c1, Real.sqrt_one], c3, hdir⟩

/-- C7 witness: concrete anchors `(2,0,0)` and `(0,0,2)` with a nonzero
projected midpoint give a unit direction vector with zero axial part. -/
theorem anchored_direction_unit_witness :
    sq_norm (loop_direction_anchored ⟨2, 0, 0⟩ ⟨0, 0, 2⟩) = 1 ∧
    Real.sqrt (sq_norm (loop_direction_anchored ⟨2, 0, 0⟩ ⟨0, 0, 2⟩)) = 1 ∧
    (loop_direction_anchored ⟨2, 0, 0⟩ ⟨0, 0, 2⟩).z = 0 ∧
    loop_direction_anchored ⟨2, 0, 0⟩ ⟨0, 0, 2⟩
      = vdiv ⟨((2 : ℝ) + 0) / 2, ((0 : ℝ) + 0) / 2, 0⟩
          (Real.sqrt (sq_norm ⟨((2 : ℝ) + 0) / 2, ((0 : ℝ) + 0) / 2, 0⟩)) :=
  anchored_direction_unit ⟨2, 0, 0⟩ ⟨0, 0, 2⟩ (by norm_num)

lemma place_arms_eq_profile (u : V3) (start e : ℕ) (c : ℕ → V3) (h : start < e) :
    ∀ t, t ≤ (e - start) / 2 → place_arms u start e c t = arm_profile u start e c t := by
  intro t
  induction t with
  | zero =>
      intro _
      funext i
      simp only [place_arms, arm_profile]
      rw [if_neg (by omega), if_neg (by omega)]
  | succ t ih =>
      intro ht
      have ht' : t ≤ (e - start) / 2 := by omega
      have h2t : 2 * t + 2 ≤ e - start := by omega
      simp only [place_arms]
      rw [ih ht']
      funext i
      have hPs : arm_profile u start e c t (start + t) = c start + nsmulV t u := by
        rcases Nat.eq_zero_or_pos t with rfl | htpos
        · simp only [arm_profile]
          rw [if_neg (by omega), if_neg (by omega), nsmulV_zero_add, Nat.add_zero]
        · simp only [arm_profile]
          rw [if_pos (by omega), show start + t - start = t from by omega]
      have hPe : arm_profile u start e c t (e - t) = c e + nsmulV t u := by
        rcases Nat.eq_zero_or_pos t with rfl | htpos
        · simp only [arm_profile]
          rw [if_neg (by omega), if_neg (by omega), nsmulV_zero_add, Nat.sub_zero]
        · simp only [arm_profile]
          rw [if_neg (by omega), if_pos (by omega), show e - (e - t) = t from by omega]
      simp only [Function.update_apply]
      rw [if_neg (show ¬ e - t = start + t + 1 from by omega), hPs, hPe,
        nsmulV_succ_add, nsmulV_succ_add]
      by_cases hiB : i = e - t - 1
      · subst hiB
        rw [if_pos rfl]
        simp only [arm_profile]
        rw [if_neg (by omega), if_pos (by omega),
          show e - (e - t - 1) = t + 1 from by omega]
      · rw [if_neg hiB]
        by_cases hiA : i = start + t + 1
        · subst hiA
          rw [if_pos rfl]
          simp only [arm_profile]
          rw [if_pos (by omega), show start + t + 1 - start = t + 1 from by omega]
        · rw [if_neg hiA]
          simp only [arm_profile]
          split_ifs <;> first | rfl | omega

lemma profile_end_chain (u : V3) (start e : ℕ) (c : ℕ → V3) (h : start < e)
    (t j : ℕ) (ht : t ≤ (e - start) / 2) (hj : j ≤ t) :
    arm_profile u start e c t (e - j) = c e + nsmulV j u := by
  rcases Nat.eq_zero_or_pos j with rfl | hjpos
  · simp only [arm_profile]
    rw [if_neg (by omega), if_neg (by omega), nsmulV_zero_add, Nat.sub_zero]
  · simp only [arm_profile]
    rw [if_neg (by omega), if_pos (by omega), show e - (e - j) = j from by omega]

lemma profile_start_chain (u : V3) (start e : ℕ) (c : ℕ → V3) (h : start < e)
    (t j : ℕ) (ht : t ≤ (e - start) / 2) (hj : j ≤ t) (hlt : start + j < e - t) :
    arm_profile u start e c t (start + j) = c start + nsmulV j u := by
  rcases Nat.eq_zero_or_pos j with rfl | hjpos
  · simp only [arm_profile]
    rw [if_neg (by omega), if_neg (by omega), nsmulV_zero_add, Nat.add_zero]
  · simp only [arm_profile]
    rw [if_pos (by omega), show start + j - start = j from by omega]

/-- C6 (amended): the arm placer runs `⌊(end-start)/2⌋` iterations, one
more than `⌊n/2⌋` when the interior length `n = end-start-1` is odd (and
equal to `⌊n/2⌋` when `n` is even); both arms advance in the same
direction `u`: every end-arm bond satisfies
`coords[end-j-1] = coords[end-j] + u` exactly, and every start-arm bond
satisfies `coords[start+j+1] = coords[start+j] + u` exactly except the
final bond into the middle particle when `n` is odd, which the end arm
overwrites. -/
theorem arm_placer_bonds (u : V3) (start e : ℕ) (c : ℕ → V3) (h : start < e) :
    (∀ j, j < (e - start) / 2 →
        place_loop u start e c (e - j - 1) = place_loop u start e c (e - j) + u) ∧
    (∀ j, j < (e - start) / 2 → (j + 1 < (e - start) / 2 ∨ (e - start) % 2 = 1) →
        place_loop u start e c (start + j + 1)
          = place_loop u start e c (start + j) + u) ∧
    ((e - start) % 2 = 1 → (e - start) / 2 = (e - start - 1) / 2) := by
  have hprof := place_arms_eq_profile u start e c h ((e - start) / 2) le_rfl
  refine ⟨?_, ?_, by omega⟩
  · intro j hj
    simp only [place_loop]
    rw [hprof]
    have e1 : arm_profile u start e c ((e - start) / 2) (e - j - 1)
        = c e + nsmulV (j + 1) u := by
      have h1 := profile_end_chain u start e c h ((e - start) / 2) (j + 1) le_rfl (by omega)
      rw [show e - (j + 1) = e - j - 1 from by omega] at h1
      exact h1
    have e2 : arm_profile u start e c ((e - start) / 2) (e - j)
        = c e + nsmulV j u :=
      profile_end_chain u start e c h ((e - start) / 2) j le_rfl (by omega)
    rw [e1, e2, nsmulV_succ_add]
  · intro j hj hside
    simp only [place_loop]
    rw [hprof]
    rw [show start + j + 1 = start + (j + 1) from rfl]
    have s1 : arm_profile u start e c ((e - start) / 2) (start + (j + 1))
        = c start + nsmulV (j + 1) u :=
      profile_start_chain u start e c h ((e - start) / 2) (j + 1) le_rfl
        (by omega) (by omega)
    have s2 : arm_profile u start e c ((e - start) / 2) (start + j)
        = c start + nsmulV j u :=
      profile_start_chain u start e c h ((e - start) / 2) j le_rfl
        (by omega) (by omega)
    rw [s1, s2, nsmulV_succ_add]

/-- C6 witness: for the loop `(0, 5)` (even interior), the first end-arm
bond equals the direction vector exactly. -/
theorem arm_placer_bonds_witness :
    place_loop ⟨1, 0, 0⟩ 0 5 (fun _ => 0) (5 - 0 - 1)
      = place_loop ⟨1, 0, 0⟩ 0 5 (fun _ => 0) (5 - 0) + ⟨1, 0, 0⟩ :=
  (arm_placer_bonds ⟨1, 0, 0⟩ 0 5 (fun _ => 0) (by omega)).1 0 (by omega)

/-- C6 counterexample: for the loop `(0, 4)` (interior length `n = 3`),
the code's arm placer runs `⌊(4-0)/2⌋ = 2` iterations and writes the
middle interior index 2 (to the end anchor's position plus `2u`), while
the claimed `⌊n/2⌋ = 1` steps per arm would leave index 2 untouched at
its initial value: the two placements differ at index 2. -/
theorem arm_placer_step_count_cex :
    place_loop ⟨1, 0, 0⟩ 0 4 loop_cex_coords 2 = ⟨2, 10, 0⟩ ∧
    place_loop_spec ⟨1, 0, 0⟩ 0 4 loop_cex_coords 2 = 0 ∧
    place_loop ⟨1, 0, 0⟩ 0 4 loop_cex_coords 2
      ≠ place_loop_spec ⟨1, 0, 0⟩ 0 4 loop_cex_coords 2 := by
  have hL : place_loop ⟨1, 0, 0⟩ 0 4 loop_cex_coords 2 = ⟨2, 10, 0⟩ := by
    have hp := place_arms_eq_profile ⟨1, 0, 0⟩ 0 4 loop_cex_coords (by omega) 2 (by omega)
    simp only [place_loop]
    norm_num
    rw [hp]
    simp only [arm_profile]
    rw [if_neg (by omega), if_pos (by omega)]
    apply V3.ext <;> simp [loop_cex_coords, nsmulV]
  have hR : place_loop_spec ⟨1, 0, 0⟩ 0 4 loop_cex_coords 2 = 0 := by
    have hp := place_arms_eq_profile ⟨1, 0, 0⟩ 0 4 loop_cex_coords (by omega) 1 (by omega)
    simp only [place_loop_spec]
    norm_num
    rw [hp]
    simp only [arm_profile]
    rw [if_neg (by omega), if_neg (by omega)]
    simp [loop_cex_coords]
  refine ⟨hL, hR, ?_⟩
  intro hEq
  rw [hL, hR] at hEq
  have := congrArg V3.x hEq
  simp at this

/-- C10: when the interior length `n = end-start-1` is odd, the arm loop
runs `⌊(end-start)/2⌋ = (n+1)/2` iterations; in its last iteration both
assignments target the single middle interior index, and since the
end-side assignment executes second the middle particle's final position
is the end arm's value `coords[end-j] + u`. -/
theorem odd_interior_middle_tiebreak (u : V3) (start e : ℕ) (c : ℕ → V3)
    (h1 : start < e) (h2 : (e - start) % 2 = 0) :
    (e - start - 1) % 2 = 1 ∧
    (e - start) / 2 = ((e - start - 1) + 1) / 2 ∧
    start + ((e - start) / 2 - 1) + 1 = e - ((e - start) / 2 - 1) - 1 ∧
    place_loop u start e c (e - (e - start) / 2)
      = place_loop u start e c (e - (e - start) / 2 + 1) + u := by
  have hge2 : 2 ≤ e - start := by omega
  refine ⟨by omega, by omega, by omega, ?_⟩
  have hprof := place_arms_eq_profile u start e c h1 ((e - start) / 2) le_rfl
  simp only [place_loop]
  rw [hprof]
  have e1 : arm_profile u start e c ((e - start) / 2) (e - (e - start) / 2)
      = c e + nsmulV ((e - start) / 2) u :=
    profile_end_chain u start e c h1 ((e - start) / 2) ((e - start) / 2) le_rfl le_rfl
  have e2 : arm_profile u start e c ((e - start) / 2) (e - (e - start) / 2 + 1)
      = c e + nsmulV ((e - start) / 2 - 1) u := by
    have h3 := profile_end_chain u start e c h1 ((e - start) / 2)
      ((e - start) / 2 - 1) le_rfl (by omega)
    rw [show e - ((e - start) / 2 - 1) = e - (e - start) / 2 + 1 from by omega] at h3
    exact h3
  rw [e1, e2]
  have h4 := nsmulV_succ_add (c e) u ((e - start) / 2 - 1)
  rw [show (e - start) / 2 - 1 + 1 = (e - start) / 2 from by omega] at h4
  rw [h4]

/-- C10 witness: the loop `(0, 4)` has odd interior length 3; the middle
particle at index 2 holds the end arm's value. -/
theorem odd_interior_middle_tiebreak_witness :
    (4 - 0 - 1) % 2 = 1 ∧
    (4 - 0) / 2 = ((4 - 0 - 1) + 1) / 2 ∧
    0 + ((4 - 0) / 2 - 1) + 1 = 4 - ((4 - 0) / 2 - 1) - 1 ∧
    place_loop ⟨0, 1, 0⟩ 0 4 (fun _ => 0) (4 - (4 - 0) / 2)
      = place_loop ⟨0, 1, 0⟩ 0 4 (fun _ => 0) (4 - (4 - 0) / 2 + 1) + ⟨0, 1, 0⟩ :=
  odd_interior_middle_tiebreak ⟨0, 1, 0⟩ 0 4 (fun _ => 0) (by omega) (by omega)

